import Mathlib

/-!
Verification of the download-client reconciliation core.

The development embeds the three source variants of the reconciler:
the strict variant in src/download-client.ts (namespace DC), the
secret-aware strict variant (namespace P0) and the tolerant variant
(namespace P1).  JavaScript values carried by the records are embedded
as explicit inductive types; JS Maps become association lists with
insert-overwrite semantics; JSON.stringify becomes an executable
serializer; Array.prototype.sort composed with join becomes sorting of
the string coercions, which agrees with sorting the elements by their
string coercion and then coercing.
-/

/-- Primitive JS values that can sit in the ten scalar attributes and in
tag collections: null, booleans, numbers (modelled as integers) and
strings.  The JS strict equality used on these attributes is value
equality, embedded as decidable equality. -/
inductive Prim where
  | pnull
  | pbool (b : Bool)
  | pnum (n : Int)
  | pstr (s : String)
deriving DecidableEq

/-- Arbitrary JSON-serializable values carried by the value slot of a
field; objects keep their key insertion order, as JSON.stringify does. -/
inductive JSVal where
  | jnull
  | jbool (b : Bool)
  | jnum (n : Int)
  | jstr (s : String)
  | jarr (elems : List JSVal)
  | jobj (props : List (String × JSVal))

/-- String coercion of a primitive, as performed by JS String() and by
Array.prototype.join on the elements. -/
def strCoerce : Prim → String
  | .pnull => "null"
  | .pbool true => "true"
  | .pbool false => "false"
  | .pnum n => toString n
  | .pstr s => s

mutual

/-- Serialization of a value in the manner of JSON.stringify: object
properties are emitted in insertion order, so two objects that differ
only in key order serialize differently.  String escaping is not needed
at the precision of the claims. -/
def stringify : JSVal → String
  | .jnull => "null"
  | .jbool true => "true"
  | .jbool false => "false"
  | .jnum n => toString n
  | .jstr s => "\"" ++ s ++ "\""
  | .jarr elems => "[" ++ stringifyElems elems ++ "]"
  | .jobj props => "\x7b" ++ stringifyProps props ++ "\x7d"

/-- Comma-separated serialization of array elements. -/
def stringifyElems : List JSVal → String
  | [] => ""
  | [v] => stringify v
  | v :: rest => stringify v ++ "," ++ stringifyElems rest

/-- Comma-separated serialization of object properties in order. -/
def stringifyProps : List (String × JSVal) → String
  | [] => ""
  | [p] => "\"" ++ p.1 ++ "\":" ++ stringify p.2
  | p :: rest => "\"" ++ p.1 ++ "\":" ++ stringify p.2 ++ "," ++ stringifyProps rest

end

/-- Serialization lifted to an optional value: JSON.stringify of
undefined is undefined, and the source compares those results with
strict inequality, under which undefined equals undefined. -/
def stringifyOpt : Option JSVal → Option String :=
  Option.map stringify

/-- Lexicographic comparison of character lists, the order JS string
comparison uses (code units; code points coincide on the values the
claims need). -/
def charListLe : List Char → List Char → Bool
  | [], _ => true
  | _ :: _, [] => false
  | a :: as, b :: bs => if a < b then true else if b < a then false else charListLe as bs

/-- Boolean string comparison backing the JS sort comparator. -/
def strLe (s t : String) : Bool :=
  charListLe s.data t.data

/-- Propositional form of strLe, used as the sorting relation. -/
def strLeProp (s t : String) : Prop :=
  strLe s t = true

instance : DecidableRel strLeProp := fun s t =>
  inferInstanceAs (Decidable (strLe s t = true))

/-- Comma join of a list of strings, as Array.prototype.join with
separator comma. -/
def joinComma : List String → String
  | [] => ""
  | [s] => s
  | s :: rest => s ++ "," ++ joinComma rest

/-- One named field of a client: a name and an optional arbitrary value,
matching the source type Field. -/
structure ClientField where
  name : String
  value : Option JSVal := none

/-- The ten comparable scalar attributes of the scalar attribute pass. -/
inductive Attr where
  | configContract
  | enable
  | implementation
  | implementationName
  | infoLink
  | name
  | priority
  | protocol
  | removeCompletedDownloads
  | removeFailedDownloads
deriving DecidableEq

/-- The attribute list in the order the source declares it. -/
def attrList : List Attr :=
  [.configContract, .enable, .implementation, .implementationName, .infoLink,
   .name, .priority, .protocol, .removeCompletedDownloads, .removeFailedDownloads]

/-- A desired entry (InputConfigDownloadClient): every attribute is
optional, absence embedding the absent JS property. -/
structure ConfigClient where
  name : Option String := none
  implementation : Option String := none
  implementationName : Option Prim := none
  configContract : Option Prim := none
  infoLink : Option Prim := none
  protocol : Option Prim := none
  enable : Option Prim := none
  priority : Option Prim := none
  removeCompletedDownloads : Option Prim := none
  removeFailedDownloads : Option Prim := none
  tags : Option (List Prim) := none
  fields : Option (List ClientField) := none

/-- An observed record (MergedDownloadClientResource): the same
attributes plus the server-assigned identifier. -/
structure ServerClient where
  id : Int
  name : Option String := none
  implementation : Option String := none
  implementationName : Option Prim := none
  configContract : Option Prim := none
  infoLink : Option Prim := none
  protocol : Option Prim := none
  enable : Option Prim := none
  priority : Option Prim := none
  removeCompletedDownloads : Option Prim := none
  removeFailedDownloads : Option Prim := none
  tags : Option (List Prim) := none
  fields : Option (List ClientField) := none

/-- Uniform read of one of the ten scalar attributes from a desired
entry, embedding the dynamic property access of the source; the two
string-typed identity attributes are injected into Prim. -/
def ConfigClient.attr (c : ConfigClient) : Attr → Option Prim
  | .configContract => c.configContract
  | .enable => c.enable
  | .implementation => c.implementation.map Prim.pstr
  | .implementationName => c.implementationName
  | .infoLink => c.infoLink
  | .name => c.name.map Prim.pstr
  | .priority => c.priority
  | .protocol => c.protocol
  | .removeCompletedDownloads => c.removeCompletedDownloads
  | .removeFailedDownloads => c.removeFailedDownloads

/-- Uniform read of one of the ten scalar attributes from an observed
record. -/
def ServerClient.attr (s : ServerClient) : Attr → Option Prim
  | .configContract => s.configContract
  | .enable => s.enable
  | .implementation => s.implementation.map Prim.pstr
  | .implementationName => s.implementationName
  | .infoLink => s.infoLink
  | .name => s.name.map Prim.pstr
  | .priority => s.priority
  | .protocol => s.protocol
  | .removeCompletedDownloads => s.removeCompletedDownloads
  | .removeFailedDownloads => s.removeFailedDownloads

/-- Identity key construction: the template literal joining the name and
implementation components with a double colon, each defaulting to the
empty string when absent. -/
def keyOf (name implementation : Option String) : String :=
  name.getD "" ++ "::" ++ implementation.getD ""

/-- Identity key of a desired entry. -/
def ConfigClient.key (c : ConfigClient) : String :=
  keyOf c.name c.implementation

/-- Identity key of an observed record. -/
def ServerClient.key (s : ServerClient) : String :=
  keyOf s.name s.implementation

/-- Association-list embedding of a JS Map entry sequence.  Insertion
overwrites the value in place when the key is already present and
appends otherwise, matching Map.prototype.set. -/
def mapSet {Val : Type} : List (String × Val) → String → Val → List (String × Val)
  | [], k, v => [(k, v)]
  | p :: rest, k, v => if p.1 = k then (k, v) :: rest else p :: mapSet rest k v

/-- Lookup in the association-list map, as Map.prototype.get. -/
def mapGet {Val : Type} : List (String × Val) → String → Option Val
  | [], _ => none
  | p :: rest, k => if p.1 = k then some p.2 else mapGet rest k

/-- Key-presence test, as Map.prototype.has. -/
def mapHas {Val : Type} (m : List (String × Val)) (k : String) : Bool :=
  (mapGet m k).isSome

/-- Construction of a JS Map from an entry stream: insert every item in
order with a derived key and value, so a later duplicate key overwrites
an earlier one. -/
def buildMapKV {Src Val : Type} (key : Src → String) (val : Src → Val)
    (l : List Src) : List (String × Val) :=
  l.foldl (fun m x => mapSet m (key x) (val x)) []

/-- Index of a record list by identity key, as the Map comprehensions in
calculateDownloadClientsDiff. -/
def buildMap {Src : Type} (key : Src → String) (l : List Src) : List (String × Src) :=
  buildMapKV key id l

/-- Field-name-to-value map of a field collection, as toFieldMap applied
to an optional array: a missing collection is treated as empty. -/
def fieldPairs (fields : List ClientField) : List (String × Option JSVal) :=
  buildMapKV ClientField.name ClientField.value fields

/-- The toFieldMap of the source, accepting the optional collection. -/
def toFieldMap (fields : Option (List ClientField)) : List (String × Option JSVal) :=
  fieldPairs (fields.getD [])

/-- Field collection comparison of the source areFieldsEqual: the two
maps have the same size and every key of the first is present in the
second with a value whose JSON serialization matches. -/
def areFieldsEqual (a b : Option (List ClientField)) : Bool :=
  let am := toFieldMap a
  let bm := toFieldMap b
  am.length == bm.length &&
    am.all fun p =>
      match mapGet bm p.1 with
      | none => false
      | some w => decide (stringifyOpt w = stringifyOpt p.2)

/-- Scalar attribute pass shared by the two strict variants: each of the
ten attributes is read on both sides, absent values are normalized to
null by the nullish coalescing, and the results are compared with JS
strict equality; the source loop returns false on the first mismatch,
which agrees with the conjunction over the list. -/
def strictScalarPass (server : ServerClient) (entry : ConfigClient) : Bool :=
  attrList.all fun a =>
    decide ((server.attr a).getD Prim.pnull = (entry.attr a).getD Prim.pnull)

/-- Sorted comma join of a tag collection as the source performs it:
Array.prototype.sort orders the elements by their string conversion and
join converts each element to a string, which composes to joining the
sorted list of string conversions. -/
def jsSortJoin (tags : List Prim) : String :=
  joinComma (List.insertionSort strLeProp (tags.map strCoerce))

/-- Tag comparison of the strict variants: same length and equal sorted
comma joins; a non-array (absent) collection has already been replaced
by the empty array at the call site. -/
def tagsMatchStrict (s e : List Prim) : Bool :=
  s.length == e.length && decide (jsSortJoin s = jsSortJoin e)

namespace DC

/-- Equality evaluator of src/download-client.ts: strict scalar pass,
then the strict tag comparison, then areFieldsEqual on the raw field
collections.  The diagnostic block of the source that re-derives the
field difference only runs when areFieldsEqual is false and returns
false on every path that the falsity makes reachable, so the result
equals the conjunction. -/
def isSameClient (server : ServerClient) (entry : ConfigClient) : Bool :=
  strictScalarPass server entry
    && tagsMatchStrict (server.tags.getD []) (entry.tags.getD [])
    && areFieldsEqual server.fields entry.fields

end DC

namespace P0

/-- Sensitive field names of the secret-aware variant. -/
def SENSITIVE_FIELD_NAMES : List String :=
  ["apiKey", "password", "api_key"]

/-- Removal of sensitive-named fields from an optional collection, as
the source stripSecrets. -/
def stripSecrets (arr : Option (List ClientField)) : List ClientField :=
  (arr.getD []).filter fun f => !SENSITIVE_FIELD_NAMES.contains f.name

/-- Inlined field checks of the secret-aware variant: size equality,
every key of the first map present in the second with matching
serialization, and every key of the second present in the first. -/
def fieldsChecks (sm em : List (String × Option JSVal)) : Bool :=
  sm.length == em.length &&
    (sm.all fun p =>
      match mapGet em p.1 with
      | none => false
      | some w => decide (stringifyOpt w = stringifyOpt p.2)) &&
    em.all fun p => mapHas sm p.1

/-- Equality evaluator of the secret-aware variant: strict scalar pass,
strict tag comparison, and the inlined field checks applied to the
secret-stripped field collections. -/
def isSameClient (server : ServerClient) (entry : ConfigClient) : Bool :=
  strictScalarPass server entry
    && tagsMatchStrict (server.tags.getD []) (entry.tags.getD [])
    && fieldsChecks (fieldPairs (stripSecrets server.fields))
        (fieldPairs (stripSecrets entry.fields))

end P0

namespace P1

/-- Equality evaluator of the tolerant variant: an attribute absent from
the desired entry is skipped; a present one must equal the observed
value under JS strict equality, with no null normalization.  Tags are
compared only when the desired entry provides them, by sorting the
string coercions of both sides and comparing element-wise; the field
collections are never consulted. -/
def isSameClient (server : ServerClient) (entry : ConfigClient) : Bool :=
  (attrList.all fun a =>
    match entry.attr a with
    | none => true
    | some v => decide (server.attr a = some v))
    &&
  match entry.tags with
  | none => true
  | some etags =>
      let s := List.insertionSort strLeProp ((server.tags.getD []).map strCoerce)
      let e := List.insertionSort strLeProp (etags.map strCoerce)
      s.length == e.length && decide (s = e)

end P1

/-- Shallow override of an optional attribute: the object spread of the
observed record followed by the desired entry keeps the desired value
when the desired entry owns the property and the observed value
otherwise. -/
def ovr {Val : Type} (desired observed : Option Val) : Option Val :=
  match desired with
  | some v => some v
  | none => observed

/-- Shallow merge building the changed payload: spread of the observed
record then the desired entry, so desired attributes override and
observed-only attributes, in particular the identifier, survive. -/
def mergeClient (srv : ServerClient) (entry : ConfigClient) : ServerClient :=
  { id := srv.id
    name := ovr entry.name srv.name
    implementation := ovr entry.implementation srv.implementation
    implementationName := ovr entry.implementationName srv.implementationName
    configContract := ovr entry.configContract srv.configContract
    infoLink := ovr entry.infoLink srv.infoLink
    protocol := ovr entry.protocol srv.protocol
    enable := ovr entry.enable srv.enable
    priority := ovr entry.priority srv.priority
    removeCompletedDownloads := ovr entry.removeCompletedDownloads srv.removeCompletedDownloads
    removeFailedDownloads := ovr entry.removeFailedDownloads srv.removeFailedDownloads
    tags := ovr entry.tags srv.tags
    fields := ovr entry.fields srv.fields }

/-- The three result buckets of the diff before the sentinel decision. -/
structure Diff where
  missingOnServer : List ConfigClient
  notAvailableAnymore : List ServerClient
  changed : List (String × ServerClient)

/-- Diff assembly shared verbatim by the three source variants, with the
equality evaluator passed as a parameter: index both sides by identity
key, collect desired entries without an observed counterpart, observed
records without a desired counterpart, and matched pairs the evaluator
rejects, the last as the stringified observed identifier with the
shallow-merged payload. -/
def assembleDiff (same : ServerClient → ConfigClient → Bool)
    (configEntries : List ConfigClient) (serverList : List ServerClient) : Diff :=
  let configMap := buildMap ConfigClient.key configEntries
  let serverMap := buildMap ServerClient.key serverList
  let missingOnServer := (configMap.filter fun p => !mapHas serverMap p.1).map (·.2)
  let notAvailableAnymore := (serverMap.filter fun p => !mapHas configMap p.1).map (·.2)
  let changed := serverMap.filterMap fun p =>
    match mapGet configMap p.1 with
    | none => none
    | some entry =>
        if same p.2 entry then none
        else some (toString p.2.id, mergeClient p.2 entry)
  ⟨missingOnServer, notAvailableAnymore, changed⟩

/-- Sentinel decision of calculateDownloadClientsDiff: when the three
buckets are all empty return the no-changes sentinel, otherwise the
bucket object. -/
def calcDiff (same : ServerClient → ConfigClient → Bool)
    (configEntries : List ConfigClient) (serverList : List ServerClient) : Option Diff :=
  let d := assembleDiff same configEntries serverList
  if d.missingOnServer.length == 0 && d.notAvailableAnymore.length == 0
      && d.changed.length == 0 then
    none
  else
    some d

namespace DC

/-- The calculateDownloadClientsDiff of src/download-client.ts, with the
fetched server list passed as the argument the single upstream await
produces. -/
def calculateDownloadClientsDiff (configEntries : List ConfigClient)
    (serverList : List ServerClient) : Option Diff :=
  calcDiff DC.isSameClient configEntries serverList

end DC

section MapLemmas

variable {Val : Type}

theorem mapGet_mapSet (m : List (String × Val)) (k k' : String) (v : Val) :
    mapGet (mapSet m k v) k' = if k' = k then some v else mapGet m k' := by
  induction m with
  | nil =>
      by_cases h : k' = k
      · simp [mapSet, mapGet, h]
      · simp [mapSet, mapGet, h, Ne.symm h]
  | cons p rest ih =>
      by_cases hp : p.1 = k
      · by_cases h : k' = k
        · simp [mapSet, hp, mapGet, h]
        · simp [mapSet, hp, mapGet, h, Ne.symm h]
      · by_cases hq : p.1 = k'
        · have hk : ¬ k' = k := fun e => hp (by rw [hq, e])
          simp [mapSet, hp, mapGet, hq, hk]
        · simp [mapSet, hp, mapGet, hq, ih]

theorem mem_mapSet {m : List (String × Val)} {k : String} {v : Val} {p : String × Val}
    (h : p ∈ mapSet m k v) : p = (k, v) ∨ p ∈ m := by
  induction m with
  | nil => simpa [mapSet] using h
  | cons q rest ih =>
      by_cases hq : q.1 = k
      · rcases (by simpa [mapSet, hq] using h : p = (k, v) ∨ p ∈ rest) with h1 | h1
        · exact Or.inl h1
        · exact Or.inr (List.mem_cons_of_mem _ h1)
      · rcases (by simpa [mapSet, hq] using h : p = q ∨ p ∈ mapSet rest k v) with h1 | h1
        · exact Or.inr (h1 ▸ List.mem_cons_self _ _)
        · rcases ih h1 with h2 | h2
          · exact Or.inl h2
          · exact Or.inr (List.mem_cons_of_mem _ h2)

theorem mem_keys_mapSet {m : List (String × Val)} {k k' : String} {v : Val} :
    k' ∈ (mapSet m k v).map Prod.fst ↔ k' = k ∨ k' ∈ m.map Prod.fst := by
  induction m with
  | nil => simp [mapSet]
  | cons q rest ih =>
      by_cases hq : q.1 = k
      · by_cases h : k' = q.1
        · simp [mapSet, hq, h.trans hq, h ▸ List.mem_cons_self q.1 (rest.map Prod.fst)]
        · simp [mapSet, hq]
      · simp [mapSet, hq, ih]
        tauto

theorem nodup_keys_mapSet {m : List (String × Val)} {k : String} {v : Val}
    (h : (m.map Prod.fst).Nodup) : ((mapSet m k v).map Prod.fst).Nodup := by
  induction m with
  | nil => simp [mapSet]
  | cons q rest ih =>
      rw [List.map_cons, List.nodup_cons] at h
      by_cases hq : q.1 = k
      · rw [show mapSet (q :: rest) k v = (k, v) :: rest from by simp [mapSet, hq]]
        rw [List.map_cons, List.nodup_cons]
        exact ⟨hq ▸ h.1, h.2⟩
      · rw [show mapSet (q :: rest) k v = q :: mapSet rest k v from by simp [mapSet, hq]]
        rw [List.map_cons, List.nodup_cons]
        refine ⟨?_, ih h.2⟩
        intro hmem
        rcases mem_keys_mapSet.mp hmem with h1 | h1
        · exact hq h1
        · exact h.1 h1

theorem mapGet_eq_some_of_mem {m : List (String × Val)} {k : String} {v : Val}
    (hnd : (m.map Prod.fst).Nodup) (h : (k, v) ∈ m) : mapGet m k = some v := by
  induction m with
  | nil => simp at h
  | cons q rest ih =>
      simp only [List.map_cons, List.nodup_cons] at hnd
      rcases List.mem_cons.mp h with h1 | h1
      · simp [mapGet, ← h1]
      · have hk : ¬ q.1 = k := by
          intro e
          exact hnd.1 (e ▸ List.mem_map_of_mem Prod.fst h1)
        simp [mapGet, hk, ih hnd.2 h1]

theorem mem_of_mapGet_eq_some {m : List (String × Val)} {k : String} {v : Val}
    (h : mapGet m k = some v) : (k, v) ∈ m := by
  induction m with
  | nil => simp [mapGet] at h
  | cons q rest ih =>
      by_cases hq : q.1 = k
      · simp only [mapGet, hq, if_pos] at h
        obtain rfl : q.2 = v := by simpa using h
        exact (by rw [← hq] : (k, q.2) = q) ▸ List.mem_cons_self q rest
      · exact List.mem_cons_of_mem _ (ih (by simpa [mapGet, hq] using h))

theorem mapHas_iff_mem_keys {m : List (String × Val)} {k : String} :
    mapHas m k = true ↔ k ∈ m.map Prod.fst := by
  induction m with
  | nil => simp [mapHas, mapGet]
  | cons q rest ih =>
      by_cases hq : q.1 = k
      · simp [mapHas, mapGet, hq]
      · rw [show mapHas (q :: rest) k = mapHas rest k from by simp [mapHas, mapGet, hq],
          ih, List.map_cons, List.mem_cons]
        exact ⟨fun h1 => Or.inr h1, fun h1 => h1.resolve_left fun e => hq e.symm⟩

theorem mapHas_eq_false_iff {m : List (String × Val)} {k : String} :
    mapHas m k = false ↔ ¬ k ∈ m.map Prod.fst := by
  rw [← mapHas_iff_mem_keys]
  cases mapHas m k <;> simp

theorem isSome_of_mapGet {m : List (String × Val)} {k : String} {v : Val}
    (h : mapGet m k = some v) : mapHas m k = true := by
  simp [mapHas, h]

theorem mapGet_isSome_exists {m : List (String × Val)} {k : String}
    (h : mapHas m k = true) : ∃ v, mapGet m k = some v := by
  unfold mapHas at h
  exact Option.isSome_iff_exists.mp h

end MapLemmas

section BuildMapLemmas

variable {Src Val : Type}

theorem foldl_mapSet_nodup (key : Src → String) (val : Src → Val) :
    ∀ (l : List Src) (m : List (String × Val)), (m.map Prod.fst).Nodup →
      ((l.foldl (fun m x => mapSet m (key x) (val x)) m).map Prod.fst).Nodup
  | [], _, h => h
  | _ :: l, _, h => foldl_mapSet_nodup key val l _ (nodup_keys_mapSet h)

theorem nodup_keys_buildMapKV (key : Src → String) (val : Src → Val) (l : List Src) :
    ((buildMapKV key val l).map Prod.fst).Nodup :=
  foldl_mapSet_nodup key val l [] (by simp)

theorem foldl_mapSet_has (key : Src → String) (val : Src → Val) (l : List Src) :
    ∀ (m : List (String × Val)) (k : String),
      mapHas (l.foldl (fun m x => mapSet m (key x) (val x)) m) k = true ↔
        mapHas m k = true ∨ k ∈ l.map key := by
  induction l with
  | nil => intro m k; simp
  | cons x l ih =>
      intro m k
      rw [List.foldl_cons, ih, List.map_cons, List.mem_cons]
      have hstep : mapHas (mapSet m (key x) (val x)) k = true ↔
          k = key x ∨ mapHas m k = true := by
        unfold mapHas
        rw [mapGet_mapSet]
        by_cases h : k = key x <;> simp [h, mapHas]
      rw [hstep]
      tauto

theorem mapHas_buildMapKV_iff (key : Src → String) (val : Src → Val)
    (l : List Src) (k : String) :
    mapHas (buildMapKV key val l) k = true ↔ k ∈ l.map key := by
  rw [buildMapKV, foldl_mapSet_has]
  simp [mapHas, mapGet]

theorem foldl_mapSet_mem (key : Src → String) (val : Src → Val) :
    ∀ (l : List Src) (m : List (String × Val)) (p : String × Val),
      p ∈ l.foldl (fun m x => mapSet m (key x) (val x)) m →
      p ∈ m ∨ ∃ x ∈ l, p = (key x, val x)
  | [], _, _, h => Or.inl h
  | x :: l, m, p, h => by
      rcases foldl_mapSet_mem key val l _ p h with h1 | h1
      · rcases mem_mapSet h1 with h2 | h2
        · exact Or.inr ⟨x, List.mem_cons_self _ _, h2⟩
        · exact Or.inl h2
      · obtain ⟨y, hy, he⟩ := h1
        exact Or.inr ⟨y, List.mem_cons_of_mem _ hy, he⟩

theorem mem_buildMapKV (key : Src → String) (val : Src → Val)
    {l : List Src} {p : String × Val} (h : p ∈ buildMapKV key val l) :
    ∃ x ∈ l, p = (key x, val x) := by
  rcases foldl_mapSet_mem key val l [] p h with h1 | h1
  · simp at h1
  · exact h1

theorem mapGet_buildMap_eq_some (key : Src → String) {l : List Src}
    {k : String} {x : Src} (h : mapGet (buildMap key l) k = some x) :
    key x = k ∧ x ∈ l := by
  obtain ⟨y, hy, he⟩ := mem_buildMapKV key id (mem_of_mapGet_eq_some h)
  obtain ⟨e1, e2⟩ := Prod.mk.injEq .. ▸ he
  exact ⟨by rw [show x = y from e2, e1], by rw [show x = y from e2]; exact hy⟩

theorem mapHas_buildMap_iff (key : Src → String) (l : List Src) (k : String) :
    mapHas (buildMap key l) k = true ↔ k ∈ l.map key :=
  mapHas_buildMapKV_iff key id l k

end BuildMapLemmas

/-- Identity keys from which the changed bucket is assembled: the keys
present in both indices whose matched pair the evaluator rejects.  This
is the key-level view of the changed loop used to state the partition
invariant. -/
def changedKeys (same : ServerClient → ConfigClient → Bool)
    (configEntries : List ConfigClient) (serverList : List ServerClient) : List String :=
  (buildMap ServerClient.key serverList).filterMap fun p =>
    match mapGet (buildMap ConfigClient.key configEntries) p.1 with
    | none => none
    | some entry => if same p.2 entry then none else some p.1

section BucketLemmas

variable (same : ServerClient → ConfigClient → Bool)
variable (cfg : List ConfigClient) (srv : List ServerClient)

theorem mem_missingOnServer (e : ConfigClient) :
    e ∈ (assembleDiff same cfg srv).missingOnServer ↔
      ∃ k, mapGet (buildMap ConfigClient.key cfg) k = some e ∧
        mapHas (buildMap ServerClient.key srv) k = false := by
  show e ∈ ((buildMap ConfigClient.key cfg).filter
      (fun p => !mapHas (buildMap ServerClient.key srv) p.1)).map (·.2) ↔ _
  rw [List.mem_map]
  constructor
  · rintro ⟨p, hp, rfl⟩
    rw [List.mem_filter] at hp
    refine ⟨p.1, mapGet_eq_some_of_mem (nodup_keys_buildMapKV _ id _) hp.1, ?_⟩
    simpa using hp.2
  · rintro ⟨k, hget, hhas⟩
    refine ⟨(k, e), List.mem_filter.mpr ⟨mem_of_mapGet_eq_some hget, ?_⟩, rfl⟩
    simpa using hhas

theorem mem_notAvailableAnymore (s : ServerClient) :
    s ∈ (assembleDiff same cfg srv).notAvailableAnymore ↔
      ∃ k, mapGet (buildMap ServerClient.key srv) k = some s ∧
        mapHas (buildMap ConfigClient.key cfg) k = false := by
  show s ∈ ((buildMap ServerClient.key srv).filter
      (fun p => !mapHas (buildMap ConfigClient.key cfg) p.1)).map (·.2) ↔ _
  rw [List.mem_map]
  constructor
  · rintro ⟨p, hp, rfl⟩
    rw [List.mem_filter] at hp
    refine ⟨p.1, mapGet_eq_some_of_mem (nodup_keys_buildMapKV _ id _) hp.1, ?_⟩
    simpa using hp.2
  · rintro ⟨k, hget, hhas⟩
    refine ⟨(k, s), List.mem_filter.mpr ⟨mem_of_mapGet_eq_some hget, ?_⟩, rfl⟩
    simpa using hhas

theorem mem_changed (c : String × ServerClient) :
    c ∈ (assembleDiff same cfg srv).changed ↔
      ∃ k s e, mapGet (buildMap ServerClient.key srv) k = some s ∧
        mapGet (buildMap ConfigClient.key cfg) k = some e ∧
        same s e = false ∧ c = (toString s.id, mergeClient s e) := by
  show c ∈ (buildMap ServerClient.key srv).filterMap (fun p =>
      match mapGet (buildMap ConfigClient.key cfg) p.1 with
      | none => none
      | some entry =>
          if same p.2 entry then none
          else some (toString p.2.id, mergeClient p.2 entry)) ↔ _
  rw [List.mem_filterMap]
  constructor
  · rintro ⟨p, hp, hg⟩
    rcases hcm : mapGet (buildMap ConfigClient.key cfg) p.1 with _ | entry
    · rw [hcm] at hg
      simp at hg
    · rw [hcm] at hg
      by_cases hsame : same p.2 entry
      · simp [hsame] at hg
      · rw [show (match some entry with
            | none => none
            | some e' =>
                if same p.2 e' = true then none
                else some (toString p.2.id, mergeClient p.2 e')) =
            if same p.2 entry = true then none
            else some (toString p.2.id, mergeClient p.2 entry) from rfl,
          if_neg hsame] at hg
        obtain rfl : (toString p.2.id, mergeClient p.2 entry) = c := Option.some.inj hg
        exact ⟨p.1, p.2, entry,
          mapGet_eq_some_of_mem (nodup_keys_buildMapKV _ id _) hp, hcm,
          by simpa using hsame, rfl⟩
  · rintro ⟨k, s, e, hs, he, hsame, rfl⟩
    refine ⟨(k, s), mem_of_mapGet_eq_some hs, ?_⟩
    simp [he, hsame]

theorem mem_changedKeys (k : String) :
    k ∈ changedKeys same cfg srv ↔
      ∃ s e, mapGet (buildMap ServerClient.key srv) k = some s ∧
        mapGet (buildMap ConfigClient.key cfg) k = some e ∧
        same s e = false := by
  rw [changedKeys, List.mem_filterMap]
  constructor
  · rintro ⟨p, hp, hg⟩
    rcases hcm : mapGet (buildMap ConfigClient.key cfg) p.1 with _ | entry
    · rw [hcm] at hg
      simp at hg
    · rw [hcm] at hg
      by_cases hsame : same p.2 entry
      · simp [hsame] at hg
      · rw [show (match some entry with
            | none => none
            | some e' => if same p.2 e' = true then none else some p.1) =
            if same p.2 entry = true then none else some p.1 from rfl,
          if_neg hsame] at hg
        obtain rfl : p.1 = k := Option.some.inj hg
        exact ⟨p.2, entry,
          mapGet_eq_some_of_mem (nodup_keys_buildMapKV _ id _) hp, hcm,
          by simpa using hsame⟩
  · rintro ⟨s, e, hs, he, hsame⟩
    refine ⟨(k, s), mem_of_mapGet_eq_some hs, ?_⟩
    simp [he, hsame]

theorem key_mem_missingOnServer (k : String) :
    k ∈ (assembleDiff same cfg srv).missingOnServer.map ConfigClient.key ↔
      mapHas (buildMap ConfigClient.key cfg) k = true ∧
        mapHas (buildMap ServerClient.key srv) k = false := by
  rw [List.mem_map]
  constructor
  · rintro ⟨e, he, rfl⟩
    obtain ⟨k', hget, hhas⟩ := (mem_missingOnServer same cfg srv e).mp he
    obtain rfl : ConfigClient.key e = k' := (mapGet_buildMap_eq_some _ hget).1
    exact ⟨isSome_of_mapGet hget, hhas⟩
  · rintro ⟨hc, hs⟩
    obtain ⟨e, hget⟩ := mapGet_isSome_exists hc
    obtain rfl : ConfigClient.key e = k := (mapGet_buildMap_eq_some _ hget).1
    exact ⟨e, (mem_missingOnServer same cfg srv e).mpr ⟨_, hget, hs⟩, rfl⟩

theorem key_mem_notAvailableAnymore (k : String) :
    k ∈ (assembleDiff same cfg srv).notAvailableAnymore.map ServerClient.key ↔
      mapHas (buildMap ServerClient.key srv) k = true ∧
        mapHas (buildMap ConfigClient.key cfg) k = false := by
  rw [List.mem_map]
  constructor
  · rintro ⟨s, hsm, rfl⟩
    obtain ⟨k', hget, hhas⟩ := (mem_notAvailableAnymore same cfg srv s).mp hsm
    obtain rfl : ServerClient.key s = k' := (mapGet_buildMap_eq_some _ hget).1
    exact ⟨isSome_of_mapGet hget, hhas⟩
  · rintro ⟨hc, hs⟩
    obtain ⟨s, hget⟩ := mapGet_isSome_exists hc
    obtain rfl : ServerClient.key s = k := (mapGet_buildMap_eq_some _ hget).1
    exact ⟨s, (mem_notAvailableAnymore same cfg srv s).mpr ⟨_, hget, hs⟩, rfl⟩

end BucketLemmas

section StringOrder

theorem charListLe_total : ∀ as bs : List Char,
    charListLe as bs = true ∨ charListLe bs as = true
  | [], _ => Or.inl rfl
  | _ :: _, [] => Or.inr rfl
  | a :: as, b :: bs => by
      rcases lt_trichotomy a b with h | h | h
      · exact Or.inl (by simp [charListLe, h])
      · subst h
        rcases charListLe_total as bs with h1 | h1
        · exact Or.inl (by simp [charListLe, lt_self_iff_false, h1])
        · exact Or.inr (by simp [charListLe, lt_self_iff_false, h1])
      · exact Or.inr (by simp [charListLe, h])

theorem charListLe_trans : ∀ as bs cs : List Char,
    charListLe as bs = true → charListLe bs cs = true → charListLe as cs = true
  | [], _, _, _, _ => rfl
  | _ :: _, [], _, h1, _ => by simp [charListLe] at h1
  | _ :: _, _ :: _, [], _, h2 => by simp [charListLe] at h2
  | a :: as, b :: bs, c :: cs, h1, h2 => by
      rcases lt_trichotomy a b with hab | hab | hab
      · rcases lt_trichotomy b c with hbc | hbc | hbc
        · simp [charListLe, lt_trans hab hbc]
        · subst hbc
          simp [charListLe, hab]
        · simp [charListLe, lt_asymm hbc, hbc] at h2
      · subst hab
        rcases lt_trichotomy a c with hbc | hbc | hbc
        · simp [charListLe, hbc]
        · subst hbc
          simp only [charListLe, lt_self_iff_false, if_false] at h1 h2 ⊢
          exact charListLe_trans as bs cs h1 h2
        · simp [charListLe, lt_asymm hbc, hbc] at h2
      · simp [charListLe, lt_asymm hab, hab] at h1

theorem charListLe_antisymm : ∀ as bs : List Char,
    charListLe as bs = true → charListLe bs as = true → as = bs
  | [], [], _, _ => rfl
  | [], _ :: _, _, h2 => by simp [charListLe] at h2
  | _ :: _, [], h1, _ => by simp [charListLe] at h1
  | a :: as, b :: bs, h1, h2 => by
      rcases lt_trichotomy a b with hab | hab | hab
      · simp [charListLe, lt_asymm hab, hab] at h2
      · subst hab
        simp only [charListLe, lt_self_iff_false, if_false] at h1 h2
        rw [charListLe_antisymm as bs h1 h2]
      · simp [charListLe, lt_asymm hab, hab] at h1

instance : IsTotal String strLeProp :=
  ⟨fun s t => charListLe_total s.data t.data⟩

instance : IsTrans String strLeProp :=
  ⟨fun s t u => charListLe_trans s.data t.data u.data⟩

instance : IsAntisymm String strLeProp :=
  ⟨fun s t h1 h2 => by
    cases s
    cases t
    exact congrArg String.mk (charListLe_antisymm _ _ h1 h2)⟩

theorem insertionSort_strLe_eq_of_perm {l₁ l₂ : List String} (h : l₁.Perm l₂) :
    List.insertionSort strLeProp l₁ = List.insertionSort strLeProp l₂ :=
  List.eq_of_perm_of_sorted
    (((List.perm_insertionSort _ l₁).trans h).trans (List.perm_insertionSort _ l₂).symm)
    (List.sorted_insertionSort _ l₁) (List.sorted_insertionSort _ l₂)

theorem jsSortJoin_eq_of_perm {s e : List Prim}
    (h : (s.map strCoerce).Perm (e.map strCoerce)) : jsSortJoin s = jsSortJoin e := by
  unfold jsSortJoin
  rw [insertionSort_strLe_eq_of_perm h]

theorem tagsMatchStrict_of_perm {s e : List Prim}
    (h : (s.map strCoerce).Perm (e.map strCoerce)) : tagsMatchStrict s e = true := by
  have hlen : s.length = e.length := by
    have := h.length_eq
    simpa using this
  simp [tagsMatchStrict, hlen, jsSortJoin_eq_of_perm h]

end StringOrder

section FieldsLemmas

theorem nodup_keys_toFieldMap (a : Option (List ClientField)) :
    ((toFieldMap a).map Prod.fst).Nodup :=
  nodup_keys_buildMapKV _ _ _

theorem areFieldsEqual_true_iff (a b : Option (List ClientField)) :
    areFieldsEqual a b = true ↔
      ((∀ k, mapHas (toFieldMap a) k = true ↔ mapHas (toFieldMap b) k = true) ∧
       (∀ k v w, mapGet (toFieldMap a) k = some v → mapGet (toFieldMap b) k = some w →
          stringifyOpt v = stringifyOpt w)) := by
  have hKA := nodup_keys_toFieldMap a
  have hKB := nodup_keys_toFieldMap b
  rw [areFieldsEqual]
  rw [Bool.and_eq_true, beq_iff_eq, List.all_eq_true]
  constructor
  · rintro ⟨hlen, hall⟩
    have hsub : ∀ k, mapHas (toFieldMap a) k = true → mapHas (toFieldMap b) k = true := by
      intro k hk
      obtain ⟨v, hv⟩ := mapGet_isSome_exists hk
      have hchk := hall (k, v) (mem_of_mapGet_eq_some hv)
      rcases hbm : mapGet (toFieldMap b) k with _ | w
      · rw [hbm] at hchk
        simp at hchk
      · exact isSome_of_mapGet hbm
    have heqfin : ((toFieldMap a).map Prod.fst).toFinset =
        ((toFieldMap b).map Prod.fst).toFinset := by
      refine Finset.eq_of_subset_of_card_le ?_ ?_
      · intro x hx
        rw [List.mem_toFinset] at hx ⊢
        exact mapHas_iff_mem_keys.mp (hsub x (mapHas_iff_mem_keys.mpr hx))
      · rw [List.toFinset_card_of_nodup hKA, List.toFinset_card_of_nodup hKB,
          List.length_map, List.length_map, hlen]
    constructor
    · intro k
      refine ⟨hsub k, fun hk => ?_⟩
      rw [mapHas_iff_mem_keys, ← List.mem_toFinset, heqfin, List.mem_toFinset,
        ← mapHas_iff_mem_keys]
      exact hk
    · intro k v w hv hw
      have hchk := hall (k, v) (mem_of_mapGet_eq_some hv)
      rw [show mapGet (toFieldMap b) (k, v).1 = some w from hw] at hchk
      exact (by simpa using hchk : stringifyOpt w = stringifyOpt v).symm
  · rintro ⟨hhas, hval⟩
    have hperm : ((toFieldMap a).map Prod.fst).Perm ((toFieldMap b).map Prod.fst) := by
      refine (List.perm_ext_iff_of_nodup hKA hKB).mpr fun k => ?_
      rw [← mapHas_iff_mem_keys, ← mapHas_iff_mem_keys]
      constructor
      · intro h
        exact (hhas k).mp h
      · intro h
        exact (hhas k).mpr h
    refine ⟨by simpa using hperm.length_eq, ?_⟩
    intro p hp
    have hget : mapGet (toFieldMap a) p.1 = some p.2 := mapGet_eq_some_of_mem hKA hp
    obtain ⟨w, hw⟩ := mapGet_isSome_exists ((hhas p.1).mp (isSome_of_mapGet hget))
    rw [hw]
    simpa using (hval p.1 p.2 w hget hw).symm

theorem fieldsChecks_self (m : List (String × Option JSVal))
    (hnd : (m.map Prod.fst).Nodup) : P0.fieldsChecks m m = true := by
  rw [P0.fieldsChecks]
  refine (Bool.and_eq_true ..).mpr ⟨(Bool.and_eq_true ..).mpr ⟨by simp, ?_⟩, ?_⟩
  · rw [List.all_eq_true]
    intro p hp
    rw [mapGet_eq_some_of_mem hnd hp]
    simp
  · rw [List.all_eq_true]
    intro p hp
    simpa using isSome_of_mapGet (mapGet_eq_some_of_mem hnd hp)

end FieldsLemmas

/-- C9: identity-key construction is total: for every record the key is
the string name::implementation with an absent component read as the
empty string, and a record missing both identity components yields the
degenerate key of two colons. -/
theorem keyOf_total_degenerate :
    (∀ n i : Option String, keyOf n i = n.getD "" ++ "::" ++ i.getD "") ∧
    (∀ c : ConfigClient, c.key = keyOf c.name c.implementation) ∧
    (∀ s : ServerClient, s.key = keyOf s.name s.implementation) ∧
    (∀ c : ConfigClient, c.name = none → c.implementation = none → c.key = "::") ∧
    (∀ s : ServerClient, s.name = none → s.implementation = none → s.key = "::") := by
  refine ⟨fun n i => rfl, fun c => rfl, fun s => rfl, ?_, ?_⟩
  · intro c h1 h2
    rw [ConfigClient.key, h1, h2]
    rfl
  · intro s h1 h2
    rw [ServerClient.key, h1, h2]
    rfl

/-- Witness for C9 at a record with both identity components absent. -/
theorem keyOf_total_degenerate_witness :
    ({ } : ConfigClient).key = "::" ∧ ({ id := 7 } : ServerClient).key = "::" :=
  ⟨keyOf_total_degenerate.2.2.2.1 { } rfl rfl,
   keyOf_total_degenerate.2.2.2.2 { id := 7 } rfl rfl⟩

/-- C3: the scalar attribute pass of the strict evaluator applies one
comparison mode, strict, uniformly to all ten comparable attributes: the
pass succeeds exactly when every attribute compares equal after
normalizing an absent value on either side to the null sentinel, so a
pair absent on both sides matches on that attribute, and an absent value
against a present non-null value fails the pass and the evaluator. -/
theorem strict_scalar_pass_single_mode :
    (∀ (server : ServerClient) (entry : ConfigClient),
        strictScalarPass server entry = true ↔
          ∀ a ∈ attrList,
            (server.attr a).getD Prim.pnull = (entry.attr a).getD Prim.pnull) ∧
    (∀ (server : ServerClient) (entry : ConfigClient) (a : Attr),
        server.attr a = none → entry.attr a = none →
          (server.attr a).getD Prim.pnull = (entry.attr a).getD Prim.pnull) ∧
    (∀ (server : ServerClient) (entry : ConfigClient) (a : Attr), a ∈ attrList →
        server.attr a = none → ∀ v, entry.attr a = some v → v ≠ Prim.pnull →
          strictScalarPass server entry = false ∧ DC.isSameClient server entry = false) ∧
    (∀ (server : ServerClient) (entry : ConfigClient) (a : Attr), a ∈ attrList →
        entry.attr a = none → ∀ v, server.attr a = some v → v ≠ Prim.pnull →
          strictScalarPass server entry = false ∧ DC.isSameClient server entry = false) := by
  have hiff : ∀ (server : ServerClient) (entry : ConfigClient),
      strictScalarPass server entry = true ↔
        ∀ a ∈ attrList,
          (server.attr a).getD Prim.pnull = (entry.attr a).getD Prim.pnull := by
    intro server entry
    rw [strictScalarPass, List.all_eq_true]
    constructor
    · intro h a ha
      exact of_decide_eq_true (h a ha)
    · intro h a ha
      exact decide_eq_true (h a ha)
  refine ⟨hiff, ?_, ?_, ?_⟩
  · intro server entry a h1 h2
    rw [h1, h2]
  · intro server entry a ha hs v hv hvn
    have hfail : strictScalarPass server entry = false := by
      refine Bool.eq_false_iff.mpr fun h => hvn ?_
      have := (hiff server entry).mp h a ha
      rw [hs, hv] at this
      exact this.symm
    exact ⟨hfail, by simp [DC.isSameClient, hfail]⟩
  · intro server entry a ha he v hv hvn
    have hfail : strictScalarPass server entry = false := by
      refine Bool.eq_false_iff.mpr fun h => hvn ?_
      have := (hiff server entry).mp h a ha
      rw [he, hv] at this
      exact this
    exact ⟨hfail, by simp [DC.isSameClient, hfail]⟩

/-- Witness for C3: a pair absent on both sides on every attribute
passes the scalar pass, and an absent-versus-present pair on the enable
attribute fails the strict evaluator. -/
theorem strict_scalar_pass_single_mode_witness :
    strictScalarPass { id := 1 } { } = true ∧
    DC.isSameClient { id := 1 } { enable := some (Prim.pbool true) } = false :=
  ⟨(strict_scalar_pass_single_mode.1 { id := 1 } { }).mpr (by decide),
   (strict_scalar_pass_single_mode.2.2.1 { id := 1 } { enable := some (Prim.pbool true) }
      Attr.enable (by decide) rfl (Prim.pbool true) rfl (by decide)).2⟩

/-- C2 counterexample: the strict evaluator of src/download-client.ts
does not strip sensitive fields, so a pair identical except for the
value of the apiKey field is reported as no-match and yields a changed
entry, while the same pair with equal apiKey values matches; the
secret-aware variant reports match for the differing pair. -/
theorem strict_variant_compares_sensitive_fields :
    DC.isSameClient
        { id := 1, name := some "qb", implementation := some "QB",
          fields := some [⟨"apiKey", some (JSVal.jstr "k1")⟩] }
        { name := some "qb", implementation := some "QB",
          fields := some [⟨"apiKey", some (JSVal.jstr "k2")⟩] } = false ∧
    DC.isSameClient
        { id := 1, name := some "qb", implementation := some "QB",
          fields := some [⟨"apiKey", some (JSVal.jstr "k1")⟩] }
        { name := some "qb", implementation := some "QB",
          fields := some [⟨"apiKey", some (JSVal.jstr "k1")⟩] } = true ∧
    P0.isSameClient
        { id := 1, name := some "qb", implementation := some "QB",
          fields := some [⟨"apiKey", some (JSVal.jstr "k1")⟩] }
        { name := some "qb", implementation := some "QB",
          fields := some [⟨"apiKey", some (JSVal.jstr "k2")⟩] } = true ∧
    Option.map (fun d => d.changed.length)
        (DC.calculateDownloadClientsDiff
          [{ name := some "qb", implementation := some "QB",
             fields := some [⟨"apiKey", some (JSVal.jstr "k2")⟩] }]
          [{ id := 1, name := some "qb", implementation := some "QB",
             fields := some [⟨"apiKey", some (JSVal.jstr "k1")⟩] }]) = some 1 := by
  refine ⟨by decide, by decide, by decide, ?_⟩
  rfl

/-- C2 amended: the secret-aware variant removes sensitive-named fields
from both sides before the field comparison, so a pair that passes the
scalar and tag checks and whose field collections agree after secret
stripping is reported as a match; in the strict variant of
src/download-client.ts sensitive fields are compared like any other and
a difference in one does produce a changed entry. -/
theorem secret_aware_ignores_sensitive_fields
    (server : ServerClient) (entry : ConfigClient)
    (hs : strictScalarPass server entry = true)
    (ht : tagsMatchStrict (server.tags.getD []) (entry.tags.getD []) = true)
    (hf : P0.stripSecrets server.fields = P0.stripSecrets entry.fields) :
    P0.isSameClient server entry = true := by
  rw [P0.isSameClient, hs, ht, hf]
  simp only [Bool.true_and]
  exact fieldsChecks_self _ (nodup_keys_buildMapKV _ _ _)

/-- Witness for the amended C2 at a pair differing only in the value of
a sensitive field. -/
theorem secret_aware_ignores_sensitive_fields_witness :
    P0.isSameClient
      { id := 2, fields := some [⟨"password", some (JSVal.jstr "a")⟩] }
      { fields := some [⟨"password", some (JSVal.jstr "b")⟩] } = true :=
  secret_aware_ignores_sensitive_fields _ _ (by decide) (by decide) rfl

/-- C6 counterexample: the strict tag check compares comma joins of the
sorted string coercions, and the join collides when coerced elements
contain the separator, so two collections that are not permutations of
each other are still reported equal. -/
theorem tag_join_comma_collision :
    tagsMatchStrict [Prim.pstr "a,b", Prim.pstr "c"]
        [Prim.pstr "a", Prim.pstr "b,c"] = true ∧
    ¬ (([Prim.pstr "a,b", Prim.pstr "c"].map strCoerce).Perm
        ([Prim.pstr "a", Prim.pstr "b,c"].map strCoerce)) := by
  refine ⟨by decide, by decide⟩

/-- C6 amended: the tag check reports equal whenever the two collections
carry the same multiset of string-coerced elements, in particular
whenever they differ only in element order; the converse direction of
the claimed equivalence fails when coerced elements contain the
separator comma, as the collision counterexample shows. -/
theorem tags_match_of_coercion_perm :
    (∀ s e : List Prim, (s.map strCoerce).Perm (e.map strCoerce) →
        tagsMatchStrict s e = true) ∧
    (∀ s e : List Prim, s.Perm e → tagsMatchStrict s e = true) :=
  ⟨fun _ _ h => tagsMatchStrict_of_perm h,
   fun _ _ h => tagsMatchStrict_of_perm (h.map _)⟩

/-- Witness for the amended C6 at two tag collections differing only in
order. -/
theorem tags_match_of_coercion_perm_witness :
    tagsMatchStrict [Prim.pnum 1, Prim.pnum 2] [Prim.pnum 2, Prim.pnum 1] = true :=
  tags_match_of_coercion_perm.2 _ _ (List.Perm.swap _ _ _)

/-- C10: the tolerant evaluator consults only the scalar attributes
asserted by the desired entry and the tags when the desired entry
provides them: its verdict is invariant under arbitrary replacement of
either field collection, and a pair agreeing on every asserted scalar
attribute whose tag coercions agree as multisets is reported as a
match. -/
theorem tolerant_verdict_ignores_fields :
    (∀ (server : ServerClient) (entry : ConfigClient)
        (sf ef : Option (List ClientField)),
        P1.isSameClient { server with fields := sf } { entry with fields := ef } =
          P1.isSameClient server entry) ∧
    (∀ (server : ServerClient) (entry : ConfigClient),
        (∀ a v, entry.attr a = some v → server.attr a = some v) →
        (∀ ts, entry.tags = some ts →
          ((server.tags.getD []).map strCoerce).Perm (ts.map strCoerce)) →
        P1.isSameClient server entry = true) := by
  constructor
  · intro server entry sf ef
    rfl
  · intro server entry hattr htags
    rw [P1.isSameClient]
    refine (Bool.and_eq_true ..).mpr ⟨?_, ?_⟩
    · rw [List.all_eq_true]
      intro a _
      rcases he : entry.attr a with _ | v
      · simp
      · simp [hattr a v he]
    · rcases ht : entry.tags with _ | ts
      · simp
      · have hsorted := insertionSort_strLe_eq_of_perm (htags ts ht)
        have hlen : ((server.tags.getD []).map strCoerce).length =
            (ts.map strCoerce).length := (htags ts ht).length_eq
        simp [hsorted, (List.perm_insertionSort strLeProp _).length_eq, hlen]

/-- Witness for C10: a matched pair differing only in the field
collections is reported as a match by the tolerant evaluator. -/
theorem tolerant_verdict_ignores_fields_witness :
    P1.isSameClient
      { id := 3, enable := some (Prim.pbool true),
        fields := some [⟨"seedRatio", some (JSVal.jnum 2)⟩] }
      { enable := some (Prim.pbool true), fields := some [] } = true :=
  (tolerant_verdict_ignores_fields.1
      { id := 3, enable := some (Prim.pbool true) }
      { enable := some (Prim.pbool true) }
      (some [⟨"seedRatio", some (JSVal.jnum 2)⟩]) (some [])).trans (by decide)

/-- C4 counterexample: two field collections whose single shared field
holds objects that differ only in the order of their keys are reported
unequal by areFieldsEqual, because the comparison serializes the values
and compares the strings rather than comparing canonically. -/
theorem fields_compare_sensitive_to_key_order :
    ([("x", JSVal.jnum 1), ("y", JSVal.jnum 2)] : List (String × JSVal)).Perm
        [("y", JSVal.jnum 2), ("x", JSVal.jnum 1)] ∧
    areFieldsEqual
        (some [⟨"a", some (JSVal.jobj [("x", JSVal.jnum 1), ("y", JSVal.jnum 2)])⟩])
        (some [⟨"a", some (JSVal.jobj [("y", JSVal.jnum 2), ("x", JSVal.jnum 1)])⟩]) =
      false := by
  refine ⟨List.Perm.swap _ _ _, ?_⟩
  rfl

/-- C4 amended: the field comparison succeeds exactly when the two field
maps carry the same set of field names and every shared name maps to
values with identical JSON serializations; the serialization keeps
object key order and array element order, so both remain significant
rather than being canonicalized away. -/
theorem areFieldsEqual_iff_serialized :
    ∀ a b : Option (List ClientField),
      areFieldsEqual a b = true ↔
        ((∀ k, mapHas (toFieldMap a) k = true ↔ mapHas (toFieldMap b) k = true) ∧
         (∀ k v w, mapGet (toFieldMap a) k = some v → mapGet (toFieldMap b) k = some w →
            stringifyOpt v = stringifyOpt w)) :=
  areFieldsEqual_true_iff

/-- Witness for the amended C4 at a pair of equal singleton field
collections. -/
theorem areFieldsEqual_iff_serialized_witness :
    areFieldsEqual (some [⟨"a", some (JSVal.jnum 1)⟩])
      (some [⟨"a", some (JSVal.jnum 1)⟩]) = true :=
  (areFieldsEqual_iff_serialized _ _).mpr
    ⟨fun _ => Iff.rfl,
     fun k v w h1 h2 => by
       rw [h1] at h2
       injection h2 with h
       rw [h]⟩

/-- Helper: absence of a key in an index built from a record list is
absence from the key image of the list. -/
theorem mapHas_buildMap_false_iff {Src : Type} (key : Src → String)
    (l : List Src) (k : String) :
    mapHas (buildMap key l) k = false ↔ k ∉ l.map key := by
  rw [mapHas_eq_false_iff]
  constructor
  · intro h hk
    exact h (mapHas_iff_mem_keys.mp ((mapHas_buildMap_iff key l k).mpr hk))
  · intro h hk
    exact h ((mapHas_buildMap_iff key l k).mp (mapHas_iff_mem_keys.mpr hk))

/-- C8: the reconciliation entry point returns the no-changes sentinel
exactly when the three assembled buckets are all empty, and a returned
bucket object never has all three buckets empty. -/
theorem diff_null_iff_buckets_empty (cfg : List ConfigClient) (srv : List ServerClient) :
    (DC.calculateDownloadClientsDiff cfg srv = none ↔
      ((assembleDiff DC.isSameClient cfg srv).missingOnServer = [] ∧
       (assembleDiff DC.isSameClient cfg srv).notAvailableAnymore = [] ∧
       (assembleDiff DC.isSameClient cfg srv).changed = [])) ∧
    (∀ d, DC.calculateDownloadClientsDiff cfg srv = some d →
      ¬(d.missingOnServer = [] ∧ d.notAvailableAnymore = [] ∧ d.changed = [])) := by
  have hcond : ∀ b : Diff,
      (b.missingOnServer.length == 0 && b.notAvailableAnymore.length == 0
        && b.changed.length == 0) = true ↔
      (b.missingOnServer = [] ∧ b.notAvailableAnymore = [] ∧ b.changed = []) := by
    intro b
    simp [List.length_eq_zero, and_assoc]
  rw [DC.calculateDownloadClientsDiff]
  simp only [calcDiff]
  by_cases h : ((assembleDiff DC.isSameClient cfg srv).missingOnServer.length == 0 &&
      (assembleDiff DC.isSameClient cfg srv).notAvailableAnymore.length == 0 &&
      (assembleDiff DC.isSameClient cfg srv).changed.length == 0) = true
  · rw [if_pos h]
    refine ⟨⟨fun _ => (hcond _).mp h, fun _ => rfl⟩, ?_⟩
    intro d hd
    exact absurd hd (by simp)
  · rw [if_neg h]
    refine ⟨⟨fun hs => absurd hs (by simp), fun hp => absurd ((hcond _).mpr hp) h⟩, ?_⟩
    rintro d hd hp
    obtain rfl : assembleDiff DC.isSameClient cfg srv = d := Option.some.inj hd
    exact h ((hcond _).mpr hp)

/-- Witness for C8 on the empty inputs, whose buckets are empty. -/
theorem diff_null_iff_buckets_empty_witness :
    DC.calculateDownloadClientsDiff [] [] = none :=
  (diff_null_iff_buckets_empty [] []).1.mpr ⟨rfl, rfl, rfl⟩

/-- C5: reconciling a desired list against an observed list in which
every desired entry has an observed counterpart at its identity key that
the evaluator accepts, and every observed record likewise has an
accepted desired counterpart, yields the no-changes sentinel. -/
theorem diff_idempotent_on_matching_sets
    (cfg : List ConfigClient) (srv : List ServerClient)
    (hc : ∀ e ∈ cfg, ∃ s, mapGet (buildMap ServerClient.key srv) e.key = some s ∧
        DC.isSameClient s e = true)
    (hs : ∀ s ∈ srv, ∃ e, mapGet (buildMap ConfigClient.key cfg) s.key = some e ∧
        DC.isSameClient s e = true) :
    DC.calculateDownloadClientsDiff cfg srv = none := by
  have hm : (assembleDiff DC.isSameClient cfg srv).missingOnServer = [] := by
    rw [List.eq_nil_iff_forall_not_mem]
    intro e he
    obtain ⟨k, hget, hhas⟩ := (mem_missingOnServer _ _ _ e).mp he
    obtain ⟨hkey, hmem⟩ := mapGet_buildMap_eq_some _ hget
    obtain ⟨s, hs', _⟩ := hc e hmem
    rw [hkey] at hs'
    rw [isSome_of_mapGet hs'] at hhas
    exact Bool.noConfusion hhas
  have hn : (assembleDiff DC.isSameClient cfg srv).notAvailableAnymore = [] := by
    rw [List.eq_nil_iff_forall_not_mem]
    intro s he
    obtain ⟨k, hget, hhas⟩ := (mem_notAvailableAnymore _ _ _ s).mp he
    obtain ⟨hkey, hmem⟩ := mapGet_buildMap_eq_some _ hget
    obtain ⟨e, he', _⟩ := hs s hmem
    rw [hkey] at he'
    rw [isSome_of_mapGet he'] at hhas
    exact Bool.noConfusion hhas
  have hch : (assembleDiff DC.isSameClient cfg srv).changed = [] := by
    rw [List.eq_nil_iff_forall_not_mem]
    intro c hcmem
    obtain ⟨k, s, e, hsget, heget, hsame, _⟩ := (mem_changed _ _ _ c).mp hcmem
    obtain ⟨hskey, hsmem⟩ := mapGet_buildMap_eq_some _ hsget
    obtain ⟨e', he', hsame'⟩ := hs s hsmem
    rw [hskey] at he'
    obtain rfl : e' = e := by
      rw [he'] at heget
      exact Option.some.inj heget
    rw [hsame'] at hsame
    exact Bool.noConfusion hsame
  rw [DC.calculateDownloadClientsDiff]
  simp [calcDiff, hm, hn, hch]

/-- Witness for C5 on a one-element desired list matching a one-element
observed list. -/
theorem diff_idempotent_on_matching_sets_witness :
    DC.calculateDownloadClientsDiff
      [{ name := some "qb", implementation := some "QB" }]
      [{ id := 7, name := some "qb", implementation := some "QB" }] = none :=
  diff_idempotent_on_matching_sets _ _
    (fun e he => by
      rw [List.mem_singleton] at he
      subst he
      exact ⟨{ id := 7, name := some "qb", implementation := some "QB" }, rfl, by decide⟩)
    (fun s hsm => by
      rw [List.mem_singleton] at hsm
      subst hsm
      exact ⟨{ name := some "qb", implementation := some "QB" }, rfl, by decide⟩)

/-- C7: a matched pair the evaluator rejects contributes exactly the
changed entry holding the stringified observed identifier and the
shallow merge of observed then desired; every changed entry arises this
way; and in the merged payload every attribute asserted by the desired
entry carries the desired value while every attribute the desired entry
leaves absent, including the identifier, survives from the observed
record. -/
theorem changed_bucket_merge_spec :
    (∀ (cfg : List ConfigClient) (srv : List ServerClient) (k : String)
        (s : ServerClient) (e : ConfigClient),
        mapGet (buildMap ServerClient.key srv) k = some s →
        mapGet (buildMap ConfigClient.key cfg) k = some e →
        DC.isSameClient s e = false →
        (toString s.id, mergeClient s e) ∈ (assembleDiff DC.isSameClient cfg srv).changed) ∧
    (∀ cfg srv c, c ∈ (assembleDiff DC.isSameClient cfg srv).changed →
        ∃ k s e, mapGet (buildMap ServerClient.key srv) k = some s ∧
          mapGet (buildMap ConfigClient.key cfg) k = some e ∧
          DC.isSameClient s e = false ∧ c = (toString s.id, mergeClient s e)) ∧
    (∀ (s : ServerClient) (e : ConfigClient),
        (mergeClient s e).id = s.id ∧
        (∀ a v, e.attr a = some v → (mergeClient s e).attr a = some v) ∧
        (∀ a, e.attr a = none → (mergeClient s e).attr a = s.attr a) ∧
        (∀ t, e.tags = some t → (mergeClient s e).tags = some t) ∧
        (e.tags = none → (mergeClient s e).tags = s.tags) ∧
        (∀ f, e.fields = some f → (mergeClient s e).fields = some f) ∧
        (e.fields = none → (mergeClient s e).fields = s.fields)) := by
  refine ⟨?_, ?_, ?_⟩
  · intro cfg srv k s e hsget heget hsame
    exact (mem_changed _ _ _ _).mpr ⟨k, s, e, hsget, heget, hsame, rfl⟩
  · intro cfg srv c hc
    exact (mem_changed _ _ _ _).mp hc
  · intro s e
    refine ⟨rfl, ?_, ?_, ?_, ?_, ?_, ?_⟩
    · intro a v hv
      cases a <;>
        simp_all [ConfigClient.attr, ServerClient.attr, mergeClient, ovr] <;>
        (obtain ⟨n, hn, rfl⟩ := hv
         simp [hn])
    · intro a hv
      cases a <;> simp_all [ConfigClient.attr, ServerClient.attr, mergeClient, ovr]
    · intro t ht
      simp [mergeClient, ovr, ht]
    · intro ht
      simp [mergeClient, ovr, ht]
    · intro f hf
      simp [mergeClient, ovr, hf]
    · intro hf
      simp [mergeClient, ovr, hf]

/-- Witness for C7: the rejected matched pair of Scenario 3 contributes
its merged entry to the changed bucket. -/
theorem changed_bucket_merge_spec_witness :
    (toString (7 : Int), mergeClient
        { id := 7, name := some "qb", implementation := some "QB",
          enable := some (Prim.pbool false) }
        { name := some "qb", implementation := some "QB",
          enable := some (Prim.pbool true) }) ∈
      (assembleDiff DC.isSameClient
        [{ name := some "qb", implementation := some "QB",
           enable := some (Prim.pbool true) }]
        [{ id := 7, name := some "qb", implementation := some "QB",
           enable := some (Prim.pbool false) }]).changed :=
  changed_bucket_merge_spec.1
    [{ name := some "qb", implementation := some "QB",
       enable := some (Prim.pbool true) }]
    [{ id := 7, name := some "qb", implementation := some "QB",
       enable := some (Prim.pbool false) }]
    "qb::QB"
    { id := 7, name := some "qb", implementation := some "QB",
      enable := some (Prim.pbool false) }
    { name := some "qb", implementation := some "QB",
      enable := some (Prim.pbool true) }
    rfl rfl (by decide)

/-- C1: the buckets partition the identity keys.  A key of the desired
list without an observed counterpart is exactly a key of the
missingOnServer bucket; a key of the observed list without a desired
counterpart is exactly a key of the notAvailableAnymore bucket; a key
present on both sides has a unique matched pair in the two indices and
belongs to the changed key set exactly when the evaluator rejects the
pair, each such key contributing its merged entry to the changed bucket
and every changed entry arising from such a key; a key whose matched
pair the evaluator accepts lies in none of the three buckets; and no key
lies in two buckets. -/
theorem diff_partitions_identity_keys (cfg : List ConfigClient) (srv : List ServerClient) :
    (∀ k, k ∈ (assembleDiff DC.isSameClient cfg srv).missingOnServer.map ConfigClient.key ↔
        (k ∈ cfg.map ConfigClient.key ∧ k ∉ srv.map ServerClient.key)) ∧
    (∀ k, k ∈ (assembleDiff DC.isSameClient cfg srv).notAvailableAnymore.map ServerClient.key ↔
        (k ∈ srv.map ServerClient.key ∧ k ∉ cfg.map ConfigClient.key)) ∧
    (∀ k, k ∈ cfg.map ConfigClient.key → k ∈ srv.map ServerClient.key →
        ∃ s e, mapGet (buildMap ServerClient.key srv) k = some s ∧
          mapGet (buildMap ConfigClient.key cfg) k = some e ∧
          (k ∈ changedKeys DC.isSameClient cfg srv ↔ DC.isSameClient s e = false)) ∧
    (∀ k s e, mapGet (buildMap ServerClient.key srv) k = some s →
        mapGet (buildMap ConfigClient.key cfg) k = some e →
        DC.isSameClient s e = true →
        k ∉ (assembleDiff DC.isSameClient cfg srv).missingOnServer.map ConfigClient.key ∧
        k ∉ (assembleDiff DC.isSameClient cfg srv).notAvailableAnymore.map ServerClient.key ∧
        k ∉ changedKeys DC.isSameClient cfg srv) ∧
    (∀ k, k ∈ changedKeys DC.isSameClient cfg srv →
        ∃ s e, mapGet (buildMap ServerClient.key srv) k = some s ∧
          mapGet (buildMap ConfigClient.key cfg) k = some e ∧
          DC.isSameClient s e = false ∧
          (toString s.id, mergeClient s e) ∈ (assembleDiff DC.isSameClient cfg srv).changed) ∧
    (∀ c ∈ (assembleDiff DC.isSameClient cfg srv).changed,
        ∃ k, k ∈ changedKeys DC.isSameClient cfg srv ∧
          ∃ s e, mapGet (buildMap ServerClient.key srv) k = some s ∧
            mapGet (buildMap ConfigClient.key cfg) k = some e ∧
            c = (toString s.id, mergeClient s e)) ∧
    (∀ k,
        ¬(k ∈ (assembleDiff DC.isSameClient cfg srv).missingOnServer.map ConfigClient.key ∧
          k ∈ (assembleDiff DC.isSameClient cfg srv).notAvailableAnymore.map ServerClient.key) ∧
        ¬(k ∈ (assembleDiff DC.isSameClient cfg srv).missingOnServer.map ConfigClient.key ∧
          k ∈ changedKeys DC.isSameClient cfg srv) ∧
        ¬(k ∈ (assembleDiff DC.isSameClient cfg srv).notAvailableAnymore.map ServerClient.key ∧
          k ∈ changedKeys DC.isSameClient cfg srv)) := by
  refine ⟨?_, ?_, ?_, ?_, ?_, ?_, ?_⟩
  · intro k
    rw [key_mem_missingOnServer, mapHas_buildMap_iff, mapHas_buildMap_false_iff]
  · intro k
    rw [key_mem_notAvailableAnymore, mapHas_buildMap_iff, mapHas_buildMap_false_iff]
  · intro k hd ho
    obtain ⟨e, heget⟩ := mapGet_isSome_exists ((mapHas_buildMap_iff _ _ _).mpr hd)
    obtain ⟨s, hsget⟩ := mapGet_isSome_exists ((mapHas_buildMap_iff _ _ _).mpr ho)
    refine ⟨s, e, hsget, heget, ?_⟩
    rw [mem_changedKeys]
    constructor
    · rintro ⟨s', e', hs', he', hf⟩
      obtain rfl : s = s' := by
        rw [hsget] at hs'
        exact Option.some.inj hs'
      obtain rfl : e = e' := by
        rw [heget] at he'
        exact Option.some.inj he'
      exact hf
    · intro hf
      exact ⟨s, e, hsget, heget, hf⟩
  · intro k s e hsget heget hmatch
    refine ⟨?_, ?_, ?_⟩
    · intro hmem
      obtain ⟨_, hfalse⟩ := (key_mem_missingOnServer _ _ _ _).mp hmem
      rw [isSome_of_mapGet hsget] at hfalse
      exact Bool.noConfusion hfalse
    · intro hmem
      obtain ⟨_, hfalse⟩ := (key_mem_notAvailableAnymore _ _ _ _).mp hmem
      rw [isSome_of_mapGet heget] at hfalse
      exact Bool.noConfusion hfalse
    · intro hmem
      obtain ⟨s', e', hs', he', hf⟩ := (mem_changedKeys _ _ _ _).mp hmem
      obtain rfl : s = s' := by
        rw [hsget] at hs'
        exact Option.some.inj hs'
      obtain rfl : e = e' := by
        rw [heget] at he'
        exact Option.some.inj he'
      rw [hmatch] at hf
      exact Bool.noConfusion hf
  · intro k hk
    obtain ⟨s, e, hsget, heget, hf⟩ := (mem_changedKeys _ _ _ _).mp hk
    exact ⟨s, e, hsget, heget, hf,
      (mem_changed _ _ _ _).mpr ⟨k, s, e, hsget, heget, hf, rfl⟩⟩
  · intro c hc
    obtain ⟨k, s, e, hsget, heget, hf, rfl⟩ := (mem_changed _ _ _ _).mp hc
    exact ⟨k, (mem_changedKeys _ _ _ _).mpr ⟨s, e, hsget, heget, hf⟩,
      s, e, hsget, heget, rfl⟩
  · intro k
    refine ⟨?_, ?_, ?_⟩
    · rintro ⟨h1, h2⟩
      obtain ⟨_, hfalse⟩ := (key_mem_missingOnServer _ _ _ _).mp h1
      obtain ⟨htrue, _⟩ := (key_mem_notAvailableAnymore _ _ _ _).mp h2
      exact Bool.noConfusion (htrue.symm.trans hfalse)
    · rintro ⟨h1, h2⟩
      obtain ⟨_, hfalse⟩ := (key_mem_missingOnServer _ _ _ _).mp h1
      obtain ⟨s, e, hsget, _, _⟩ := (mem_changedKeys _ _ _ _).mp h2
      exact Bool.noConfusion ((isSome_of_mapGet hsget).symm.trans hfalse)
    · rintro ⟨h1, h2⟩
      obtain ⟨_, hfalse⟩ := (key_mem_notAvailableAnymore _ _ _ _).mp h1
      obtain ⟨s, e, _, heget, _⟩ := (mem_changedKeys _ _ _ _).mp h2
      exact Bool.noConfusion ((isSome_of_mapGet heget).symm.trans hfalse)

/-- Witness for C1 on lists exhibiting all three bucket kinds: a desired
entry without a counterpart, an observed record without a counterpart,
and a rejected matched pair. -/
theorem diff_partitions_identity_keys_witness :
    ("a::" ∈ (assembleDiff DC.isSameClient
        [{ name := some "a" },
         { name := some "qb", implementation := some "QB",
           enable := some (Prim.pbool true) }]
        [{ id := 1, name := some "b" },
         { id := 7, name := some "qb", implementation := some "QB",
           enable := some (Prim.pbool false) }]).missingOnServer.map ConfigClient.key) ∧
    ("b::" ∈ (assembleDiff DC.isSameClient
        [{ name := some "a" },
         { name := some "qb", implementation := some "QB",
           enable := some (Prim.pbool true) }]
        [{ id := 1, name := some "b" },
         { id := 7, name := some "qb", implementation := some "QB",
           enable := some (Prim.pbool false) }]).notAvailableAnymore.map ServerClient.key) ∧
    ("qb::QB" ∈ changedKeys DC.isSameClient
        [{ name := some "a" },
         { name := some "qb", implementation := some "QB",
           enable := some (Prim.pbool true) }]
        [{ id := 1, name := some "b" },
         { id := 7, name := some "qb", implementation := some "QB",
           enable := some (Prim.pbool false) }]) := by
  have h := diff_partitions_identity_keys
    [{ name := some "a" },
     { name := some "qb", implementation := some "QB",
       enable := some (Prim.pbool true) }]
    [{ id := 1, name := some "b" },
     { id := 7, name := some "qb", implementation := some "QB",
       enable := some (Prim.pbool false) }]
  refine ⟨(h.1 "a::").mpr ⟨by decide, by decide⟩,
    (h.2.1 "b::").mpr ⟨by decide, by decide⟩, ?_⟩
  obtain ⟨s, e, hsget, heget, hiff⟩ := h.2.2.1 "qb::QB" (by decide) (by decide)
  have hs2 : mapGet (buildMap ServerClient.key
      [{ id := 1, name := some "b" },
       { id := 7, name := some "qb", implementation := some "QB",
         enable := some (Prim.pbool false) }]) "qb::QB" =
      some { id := 7, name := some "qb", implementation := some "QB",
             enable := some (Prim.pbool false) } := rfl
  have he2 : mapGet (buildMap ConfigClient.key
      [{ name := some "a" },
       { name := some "qb", implementation := some "QB",
         enable := some (Prim.pbool true) }]) "qb::QB" =
      some { name := some "qb", implementation := some "QB",
             enable := some (Prim.pbool true) } := rfl
  obtain rfl := Option.some.inj (hsget.symm.trans hs2)
  obtain rfl := Option.some.inj (heget.symm.trans he2)
  exact hiff.mpr (by decide)
